import Mathlib

/-!
Verification of the dist-info locator and resolution-strategy selection of
`install-wheel-rs` / `uv-resolver`.

Strings are modelled as lists of characters (`Str`); the Rust `str` helpers
`split_once`, `rsplit_once`, `strip_prefix` and `strip_suffix` are embedded as
executable functions on `Str`.  The functions `is_metadata_entry`,
`find_dist_info` and `ResolutionStrategy.from_mode` are translated from the
repository's sources; the types `PackageName`, `Version` and `WheelFilename`
come from crates whose sources are not part of the verified tree and are
modelled from the specification.
-/

/-- Strings as lists of characters. -/
abbrev Str := List Char

/-- Rust `str::split_once(c)`: split at the first occurrence of `c`, returning
the part before and the part after; `none` when `c` does not occur. -/
def splitOnce (c : Char) : Str → Option (Str × Str)
  | [] => none
  | x :: xs =>
    if x = c then some ([], xs)
    else (splitOnce c xs).map (fun p => (x :: p.1, p.2))

/-- Rust `str::rsplit_once(c)`: split at the last occurrence of `c`. -/
def rsplitOnce (c : Char) (s : Str) : Option (Str × Str) :=
  (splitOnce c s.reverse).map (fun p => (p.2.reverse, p.1.reverse))

/-- Drop a leading pattern: `stripPre p s` is `some r` when `s = p ++ r`.
This is Rust `str::strip_prefix` with the arguments in pattern-first order. -/
def stripPre : Str → Str → Option Str
  | [], s => some s
  | _ :: _, [] => none
  | p :: ps, x :: xs => if x = p then stripPre ps xs else none

/-- Rust `str::strip_suffix`: `stripSuffix s suf = some r` when `s = r ++ suf`. -/
def stripSuffix (s suf : Str) : Option Str :=
  (stripPre suf.reverse s.reverse).map List.reverse

/-- Split on every occurrence of a character; the result always has one more
segment than there are occurrences of `c` (Rust `str::split(c)`). -/
def splitOnChar (c : Char) : Str → List Str
  | [] => [[]]
  | x :: xs =>
    match splitOnChar c xs with
    | [] => [[x]]
    | h :: t => if x = c then [] :: h :: t else (x :: h) :: t

/-- Modelled from the spec: the characters whose runs a package-name
normalisation collapses, quote "runs of `[-_.]` collapsed to a single `-`"
(the crate `uv-normalize` is not under the verified sources). -/
def isSeparator (c : Char) : Bool :=
  c = '-' || c = '_' || c = '.'

/-- Modelled from the spec: a character a package name may contain,
alphanumeric or one of the separators. -/
def isNameChar (c : Char) : Bool :=
  c.isAlphanum || isSeparator c

/-- Modelled from the spec: package-name normalisation, quote "Normalised
package names are lowercase with runs of `[-_.]` collapsed to a single `-`".
Each alphanumeric character is lowercased; every maximal run of separator
characters becomes one `-`. -/
def normalizeChars : Str → Str
  | [] => []
  | [c] => if isSeparator c then ['-'] else [c.toLower]
  | c :: d :: rest =>
    if isSeparator c then
      if isSeparator d then normalizeChars (d :: rest)
      else '-' :: normalizeChars (d :: rest)
    else c.toLower :: normalizeChars (d :: rest)

/-- Modelled from the spec: `uv_normalize::PackageName`, a package name held
in normalised form; equality of package names is equality of the normalised
forms. -/
structure PackageName where
  name : Str
  deriving DecidableEq

/-- Modelled from the spec: `PackageName::from_str` accepts a non-empty string
of alphanumeric and separator characters and stores its normalised form. -/
def packageNameFromStr (s : Str) : Option PackageName :=
  if s ≠ [] ∧ s.all isNameChar = true then some ⟨normalizeChars s⟩ else none

/-- Numeric value of a decimal digit character. -/
def digitVal (c : Char) : Nat :=
  c.toNat - 48

/-- Parse a non-empty all-digit string as a natural number. -/
def parseDigits (s : Str) : Option Nat :=
  if s ≠ [] ∧ s.all Char.isDigit = true then
    some (s.foldl (fun a c => a * 10 + digitVal c) 0)
  else none

/-- Parse every segment of a dotted release, failing when one fails. -/
def parseSegs : List Str → Option (List Nat)
  | [] => some []
  | s :: rest =>
    match parseDigits s, parseSegs rest with
    | some n, some ns => some (n :: ns)
    | _, _ => none

/-- Modelled from the spec: `pep440_rs::Version` (the crate is not under the
verified sources).  The spec requires PEP 440-conformant versions; the model
keeps the dotted numeric release segments, and compares two versions with
trailing zero segments stripped, the PEP 440 release-equality rule. -/
structure Version where
  release : List Nat
  deriving DecidableEq

/-- Modelled from the spec: `Version::from_str` on a dotted numeric release. -/
def versionFromStr (s : Str) : Option Version :=
  (parseSegs (splitOnChar '.' s)).map Version.mk

/-- Release segments with trailing zeros removed. -/
def dropTrailingZeros (l : List Nat) : List Nat :=
  (l.reverse.dropWhile (fun x => x == 0)).reverse

/-- Modelled from the spec: PEP 440 version equality, `1.0 == 1.0.0`. -/
def versionEq (a b : Version) : Bool :=
  dropTrailingZeros a.release == dropTrailingZeros b.release

/-- Modelled from the spec: `distribution_filename::WheelFilename` (the crate
is not under the verified sources).  Only the name and version components take
part in dist-info location; the compatibility-tag components are omitted. -/
structure WheelFilename where
  name : PackageName
  version : Version
  deriving DecidableEq

/-- Modelled from the spec: wheel-filename parsing, quote "Accepts a string
ending in `.whl`, splits on `-` into 5 or 6 components"; the first component
is the normalised package name, the second the version. -/
def wheelFilenameFromStr (s : Str) : Option WheelFilename :=
  match stripSuffix s (".whl".toList) with
  | none => none
  | some stem =>
    let parts := splitOnChar '-' stem
    if parts.length = 5 ∨ parts.length = 6 then
      match parts with
      | nm :: ver :: _ =>
        match packageNameFromStr nm, versionFromStr ver with
        | some name, some version => some ⟨name, version⟩
        | _, _ => none
      | _ => none
    else none

/-- Modelled from the spec: an opaque `std::io::Error`, the originating error
an I/O failure carries. -/
structure IoError where
  msg : Str
  deriving DecidableEq

/-- Modelled from the spec: an opaque `zip::result::ZipError`. -/
structure ZipError where
  msg : Str
  deriving DecidableEq

/-- Modelled from the spec: an opaque `walkdir::Error`. -/
structure WalkdirError where
  msg : Str
  deriving DecidableEq

/-- Modelled from the spec: an opaque `csv::Error`. -/
structure CsvError where
  msg : Str
  deriving DecidableEq

/-- Modelled from the spec: an opaque `platform_info::PlatformInfoError`. -/
structure PlatformInfoError where
  msg : Str
  deriving DecidableEq

/-- Modelled from the spec: an opaque `serde_json::Error`. -/
structure SerdeJsonError where
  msg : Str
  deriving DecidableEq

/-- Modelled from the spec: an opaque `uv_normalize::InvalidNameError`. -/
structure InvalidNameError where
  msg : Str
  deriving DecidableEq

/-- Modelled from the spec: an opaque `pep440_rs::VersionParseError`. -/
structure VersionParseError where
  msg : Str
  deriving DecidableEq

/-- Modelled from the spec: an opaque
`distribution_filename::WheelFilenameError`. -/
structure WheelFilenameError where
  msg : Str
  deriving DecidableEq

/-- Modelled from the spec: `platform_host::Os`, the operating-system token an
incompatibility error reports. -/
inductive Os where
  | Linux
  | Windows
  | Macos
  deriving DecidableEq

/-- Modelled from the spec: `platform_host::Arch`. -/
inductive Arch where
  | X86_64
  | Aarch64
  deriving DecidableEq

/-- The error type of `install-wheel-rs` (`enum Error` of `lib.rs`), one
constructor per Rust variant with the same payloads. -/
inductive Error where
  | Io (err : IoError)
  | Reflink (fromPath : Str) (toPath : Str) (err : IoError)
  | IncompatibleWheel (os : Os) (arch : Arch)
  | InvalidWheel (msg : Str)
  | InvalidWheelFileName (err : WheelFilenameError)
  | Zip (name : Str) (err : ZipError)
  | PythonSubcommand (err : IoError)
  | WalkDir (err : WalkdirError)
  | RecordFile (msg : Str)
  | RecordCsv (err : CsvError)
  | BrokenVenv (msg : Str)
  | UnsupportedWindowsArch (arch : Str)
  | NotWindows
  | PlatformInfo (err : PlatformInfoError)
  | Pep440
  | DirectUrlJson (err : SerdeJsonError)
  | MissingDistInfo
  | MissingRecord (path : Str)
  | MultipleDistInfo (candidates : Str)
  | InvalidSize
  | InvalidName (err : InvalidNameError)
  | InvalidVersion (err : VersionParseError)
  | MismatchedName (got : PackageName) (expected : PackageName)
  | MismatchedVersion (got : Version) (expected : Version)
  deriving DecidableEq

/-- The originating `io::Error` held by an error value, for the variants whose
Rust payload is an `io::Error` (`Io`, `Reflink`, `PythonSubcommand`). -/
def Error.ioSource : Error → Option IoError
  | Error.Io err => some err
  | Error.Reflink _ _ err => some err
  | Error.PythonSubcommand err => some err
  | _ => none

/-- The source and target paths held by a `Reflink` error value. -/
def Error.reflinkPaths : Error → Option (Str × Str)
  | Error.Reflink fromPath toPath _ => some (fromPath, toPath)
  | _ => none

/-- Translation of `is_metadata_entry` of `install-wheel-rs/src/lib.rs`:
`true` when the path is a `METADATA` file in a `dist-info` directory matching
the wheel filename. -/
def is_metadata_entry (path : Str) (filename : WheelFilename) : Bool :=
  match splitOnce '/' path with
  | none => false
  | some (dist_info_dir, file) =>
    if file ≠ "METADATA".toList then false
    else
      match stripSuffix dist_info_dir (".dist-info".toList) with
      | none => false
      | some dir_stem =>
        match rsplitOnce '-' dir_stem with
        | none => false
        | some (nm, ver) =>
          match packageNameFromStr nm with
          | none => false
          | some name =>
            if name ≠ filename.name then false
            else
              match versionFromStr ver with
              | none => false
              | some version =>
                if versionEq version filename.version = false then false
                else true

/-- Translation of the `filter_map` closure inside `find_dist_info`: `some`
of the payload and the dist-info directory stem when the entry is a matching
`METADATA` file. -/
def findDistInfoFilter {T : Type} (filename : WheelFilename) (payload : T)
    (path : Str) : Option (T × Str) :=
  match splitOnce '/' path with
  | none => none
  | some (dist_info_dir, file) =>
    if file ≠ "METADATA".toList then none
    else
      match stripSuffix dist_info_dir (".dist-info".toList) with
      | none => none
      | some dir_stem =>
        match rsplitOnce '-' dir_stem with
        | none => none
        | some (nm, ver) =>
          match packageNameFromStr nm with
          | none => none
          | some name =>
            if name ≠ filename.name then none
            else
              match versionFromStr ver with
              | none => none
              | some version =>
                if versionEq version filename.version = false then none
                else some (payload, dir_stem)

/-- The `metadatas` list collected inside `find_dist_info`. -/
def distInfoMetadatas {T : Type} (filename : WheelFilename)
    (files : List (T × Str)) : List (T × Str) :=
  files.filterMap (fun e => findDistInfoFilter filename e.1 e.2)

/-- Translation of `find_dist_info` of `install-wheel-rs/src/lib.rs`: the
unique matching dist-info directory stem, or `MissingDistInfo` when none
matches, or `MultipleDistInfo` listing all stems when several match. -/
def find_dist_info {T : Type} (filename : WheelFilename)
    (files : List (T × Str)) : Except Error (T × Str) :=
  match distInfoMetadatas filename files with
  | [] => Except.error Error.MissingDistInfo
  | [(payload, path)] => Except.ok (payload, path)
  | metadatas =>
    Except.error (Error.MultipleDistInfo
      (List.intercalate (", ".toList) (metadatas.map (fun e => e.2))))

/-- The resolution mode of `uv-resolver/src/resolution_mode.rs`. -/
inductive ResolutionMode where
  | Highest
  | Lowest
  | LowestDirect
  deriving DecidableEq

/-- Modelled from the spec: a `pep508_rs::Requirement` (the crate is not under
the verified sources); only the package name takes part in strategy
selection. -/
structure Requirement where
  name : PackageName

/-- Modelled from the spec: the metadata of a built editable; only its
`requires_dist` list is read by strategy selection. -/
structure Metadata21 where
  requires_dist : List Requirement

/-- Modelled from the spec: a `LocalEditable` (opaque here; strategy selection
ignores it). -/
structure LocalEditable where
  url : Str

/-- Modelled from the spec: the resolver `Manifest` (its type is not under the
verified sources); only the fields `requirements` and `editables` read by
`ResolutionStrategy::from_mode` are modelled. -/
structure Manifest where
  requirements : List Requirement
  editables : List (LocalEditable × Metadata21)

/-- The resolution strategy of `uv-resolver/src/resolution_mode.rs`; the
`FxHashSet<PackageName>` of the `LowestDirect` variant is modelled as a
`Finset PackageName`. -/
inductive ResolutionStrategy where
  | Highest
  | Lowest
  | LowestDirect (direct : Finset PackageName)

/-- Translation of `ResolutionStrategy::from_mode`: `Highest` and `Lowest`
ignore the manifest; `LowestDirect` collects the names of the manifest's
requirements chained with the names in the `requires_dist` of every
editable. -/
def ResolutionStrategy.from_mode (mode : ResolutionMode) (manifest : Manifest) :
    ResolutionStrategy :=
  match mode with
  | ResolutionMode.Highest => ResolutionStrategy.Highest
  | ResolutionMode.Lowest => ResolutionStrategy.Lowest
  | ResolutionMode.LowestDirect =>
    ResolutionStrategy.LowestDirect
      (((manifest.requirements ++
          (manifest.editables.map (fun e => e.2.requires_dist)).flatten).map
        (fun requirement => requirement.name)).toFinset)

/-- The spec's wording of normalisation, stated independently: every maximal
run of separator characters of the (already lowercased) input becomes one
`-`, and every other character is kept. -/
def collapseRunsSpec : Str → Str
  | [] => []
  | [c] => if isSeparator c then ['-'] else [c]
  | c :: d :: rest =>
    if isSeparator c then
      if isSeparator d then collapseRunsSpec (d :: rest)
      else '-' :: collapseRunsSpec (d :: rest)
    else c :: collapseRunsSpec (d :: rest)

theorem splitOnce_append {c : Char} {l r : Str} (h : c ∉ l) :
    splitOnce c (l ++ c :: r) = some (l, r) := by
  induction l with
  | nil => simp [splitOnce]
  | cons x xs ih =>
    have hx : ¬x = c := fun e => h (e ▸ List.mem_cons_self x xs)
    simp [splitOnce, hx, ih (fun hm => h (List.mem_cons_of_mem x hm))]

theorem splitOnce_eq_some {c : Char} {s a b : Str}
    (h : splitOnce c s = some (a, b)) : s = a ++ c :: b ∧ c ∉ a := by
  induction s generalizing a b with
  | nil => simp [splitOnce] at h
  | cons x xs ih =>
    by_cases hx : x = c
    · simp only [splitOnce, if_pos hx, Option.some.injEq, Prod.mk.injEq] at h
      obtain ⟨rfl, rfl⟩ := h
      exact ⟨by rw [hx]; rfl, List.not_mem_nil c⟩
    · simp only [splitOnce, if_neg hx] at h
      cases hsp : splitOnce c xs with
      | none => rw [hsp] at h; simp at h
      | some p =>
        rw [hsp] at h
        obtain ⟨p1, p2⟩ := p
        simp only [Option.map_some', Option.some.injEq, Prod.mk.injEq] at h
        obtain ⟨rfl, rfl⟩ := h
        obtain ⟨hs, hm⟩ := ih hsp
        refine ⟨by rw [hs]; rfl, ?_⟩
        intro hc
        rcases List.mem_cons.mp hc with hc | hc
        · exact hx hc.symm
        · exact hm hc

theorem stripPre_append (p r : Str) : stripPre p (p ++ r) = some r := by
  induction p with
  | nil => rfl
  | cons q ps ih => simp [stripPre, ih]

theorem stripPre_eq_some {p s r : Str} (h : stripPre p s = some r) :
    s = p ++ r := by
  induction p generalizing s with
  | nil => simpa [stripPre] using h
  | cons q ps ih =>
    cases s with
    | nil => simp [stripPre] at h
    | cons x xs =>
      by_cases hx : x = q
      · simp only [stripPre, if_pos hx] at h
        rw [hx, ih h]; rfl
      · simp [stripPre, hx] at h

theorem stripSuffix_append (a b : Str) : stripSuffix (a ++ b) b = some a := by
  unfold stripSuffix
  rw [List.reverse_append, stripPre_append]
  simp

theorem stripSuffix_eq_some {s b a : Str} (h : stripSuffix s b = some a) :
    s = a ++ b := by
  unfold stripSuffix at h
  cases hsp : stripPre b.reverse s.reverse with
  | none => rw [hsp] at h; simp at h
  | some r =>
    rw [hsp] at h
    simp only [Option.map_some', Option.some.injEq] at h
    have hs := stripPre_eq_some hsp
    have : s = (b.reverse ++ r).reverse := by
      rw [← hs, List.reverse_reverse]
    rw [this, List.reverse_append, List.reverse_reverse, h]

theorem rsplitOnce_append {c : Char} {l r : Str} (h : c ∉ r) :
    rsplitOnce c (l ++ c :: r) = some (l, r) := by
  unfold rsplitOnce
  have hrev : (l ++ c :: r).reverse = r.reverse ++ c :: l.reverse := by
    rw [List.reverse_append]
    simp
  rw [hrev, splitOnce_append (by simpa using h)]
  simp

theorem rsplitOnce_eq_some {c : Char} {s a b : Str}
    (h : rsplitOnce c s = some (a, b)) : s = a ++ c :: b ∧ c ∉ b := by
  unfold rsplitOnce at h
  cases hsp : splitOnce c s.reverse with
  | none => rw [hsp] at h; simp at h
  | some p =>
    rw [hsp] at h
    obtain ⟨p1, p2⟩ := p
    simp only [Option.map_some', Option.some.injEq, Prod.mk.injEq] at h
    obtain ⟨rfl, rfl⟩ := h
    obtain ⟨hs, hm⟩ := splitOnce_eq_some hsp
    constructor
    · have : s = (p1 ++ c :: p2).reverse := by rw [← hs, List.reverse_reverse]
      rw [this, List.reverse_append]
      simp
    · simpa using hm

/-- C1: for every wheel filename and finite list of (payload, path) pairs,
`find_dist_info` returns the `MissingDistInfo` error when no entry passes the
selection predicate, returns the single matching entry's payload with the
directory stem (the `.dist-info` directory name without its suffix) when
exactly one matches, and returns the `MultipleDistInfo` error listing every
matching candidate when two or more match. -/
theorem find_dist_info_match_policy {T : Type} (filename : WheelFilename)
    (files : List (T × Str)) :
    (distInfoMetadatas filename files = [] →
      find_dist_info filename files = Except.error Error.MissingDistInfo) ∧
    (∀ payload stem, distInfoMetadatas filename files = [(payload, stem)] →
      find_dist_info filename files = Except.ok (payload, stem)) ∧
    (2 ≤ (distInfoMetadatas filename files).length →
      find_dist_info filename files =
        Except.error (Error.MultipleDistInfo
          (List.intercalate (", ".toList)
            ((distInfoMetadatas filename files).map (fun e => e.2))))) := by
  refine ⟨?_, ?_, ?_⟩
  · intro h
    unfold find_dist_info
    rw [h]
  · intro payload stem h
    unfold find_dist_info
    rw [h]
  · intro h
    unfold find_dist_info
    cases hm : distInfoMetadatas filename files with
    | nil => rw [hm] at h; simp at h
    | cons x tail =>
      cases tail with
      | nil => rw [hm] at h; simp at h
      | cons y rest =>
        obtain ⟨xp, xq⟩ := x
        rfl

/-- C4: for the wheel filename `foo-1.0-py3-none-any.whl`, a file list holding
both `foo-1.0.dist-info/METADATA` and `Foo-1.0.dist-info/METADATA` makes
`find_dist_info` return the `MultipleDistInfo` error listing both candidate
stems, `foo-1.0, Foo-1.0`. -/
theorem multiple_dist_info_case_collision :
    (wheelFilenameFromStr ("foo-1.0-py3-none-any.whl".toList)).map
        (fun fn => find_dist_info fn
          [("foo-1.0.dist-info/METADATA".toList,
            "foo-1.0.dist-info/METADATA".toList),
           ("Foo-1.0.dist-info/METADATA".toList,
            "Foo-1.0.dist-info/METADATA".toList)]) =
      some (Except.error
        (Error.MultipleDistInfo ("foo-1.0, Foo-1.0".toList))) := by
  rfl

/-- C5: the wheel `Mastodon.py-1.5.1-py2.py3-none-any.whl` with the file list
of the dotted-name test locates the dist-info stem `Mastodon.py-1.5.1`
(payload is the path of its `METADATA` entry, as `read_dist_info` passes). -/
theorem mastodon_dot_in_name :
    (wheelFilenameFromStr ("Mastodon.py-1.5.1-py2.py3-none-any.whl".toList)).map
        (fun fn => find_dist_info fn
          (["mastodon/Mastodon.py",
            "mastodon/__init__.py",
            "mastodon/streaming.py",
            "Mastodon.py-1.5.1.dist-info/DESCRIPTION.rst",
            "Mastodon.py-1.5.1.dist-info/metadata.json",
            "Mastodon.py-1.5.1.dist-info/top_level.txt",
            "Mastodon.py-1.5.1.dist-info/WHEEL",
            "Mastodon.py-1.5.1.dist-info/METADATA",
            "Mastodon.py-1.5.1.dist-info/RECORD"].map
            (fun file => (file.toList, file.toList)))) =
      some (Except.ok
        ("Mastodon.py-1.5.1.dist-info/METADATA".toList,
         "Mastodon.py-1.5.1".toList)) := by
  rfl

/-- C6: the error variants whose Rust payload is an `io::Error` surface that
originating error, and the `Reflink` variant additionally carries the source
and target paths of the attempted reflink. -/
theorem error_io_payloads (err : IoError) (fromPath toPath : Str) :
    Error.ioSource (Error.Io err) = some err ∧
    Error.ioSource (Error.Reflink fromPath toPath err) = some err ∧
    Error.ioSource (Error.PythonSubcommand err) = some err ∧
    Error.reflinkPaths (Error.Reflink fromPath toPath err) =
      some (fromPath, toPath) :=
  ⟨rfl, rfl, rfl, rfl⟩

/-- C8: the standalone predicate `is_metadata_entry` agrees with the filter
used inside `find_dist_info`: an entry's path satisfies the predicate exactly
when the filter retains the entry as a candidate. -/
theorem is_metadata_entry_agrees_filter {T : Type} (filename : WheelFilename)
    (payload : T) (path : Str) :
    is_metadata_entry path filename =
      (findDistInfoFilter filename payload path).isSome := by
  unfold is_metadata_entry findDistInfoFilter
  repeat' split
  all_goals rfl

/-- C2: the locator keeps an entry exactly when its path splits at the first
`/` into a directory and the file `METADATA`, the directory name ends in
`.dist-info`, the remaining stem splits on its last `-` into a name and a
version, the name parses to a package name equal after normalisation to the
filename's, and the version parses to a version equal to the filename's. -/
theorem findDistInfoFilter_keeps_iff {T : Type} (filename : WheelFilename)
    (payload : T) (path : Str) :
    (∃ out, findDistInfoFilter filename payload path = some out) ↔
    (∃ dir stem nm ver name version,
      splitOnce '/' path = some (dir, "METADATA".toList) ∧
      stripSuffix dir (".dist-info".toList) = some stem ∧
      rsplitOnce '-' stem = some (nm, ver) ∧
      packageNameFromStr nm = some name ∧ name = filename.name ∧
      versionFromStr ver = some version ∧
      versionEq version filename.version = true) := by
  constructor
  · rintro ⟨out, h⟩
    unfold findDistInfoFilter at h
    repeat' split at h
    all_goals try (cases h)
    rename_i x4 dir file heq1 hfile x3 stem heq2 x2 nm ver heq3 x1 name heq4
      hname x0 version heq5 hver
    have hfile' : file = "METADATA".toList := not_ne_iff.mp hfile
    have hname' : name = filename.name := not_ne_iff.mp hname
    have hver' : versionEq version filename.version = true := by
      cases hbool : versionEq version filename.version with
      | false => exact absurd hbool hver
      | true => rfl
    exact ⟨dir, stem, nm, ver, name, version, hfile' ▸ heq1, heq2, heq3, heq4,
      hname', heq5, hver'⟩
  · rintro ⟨dir, stem, nm, ver, name, version, h1, h2, h3, h4, h5, h6, h7⟩
    refine ⟨(payload, stem), ?_⟩
    simp at h1 h2
    simp [findDistInfoFilter, h1, h2, h3, h4, h5, h6, h7]

/-- C9: only top-level dist-info directories are selected: a path with two or
more `/` separators (a `METADATA` file nested deeper than one directory) is
never retained, because the path is split at its first `/` and the remainder
must equal exactly `METADATA`. -/
theorem nested_dist_info_rejected {T : Type} (filename : WheelFilename)
    (payload : T) (path : Str) (h : 2 ≤ List.count '/' path) :
    is_metadata_entry path filename = false ∧
    findDistInfoFilter filename payload path = none := by
  cases hsp : splitOnce '/' path with
  | none => constructor <;> simp [is_metadata_entry, findDistInfoFilter, hsp]
  | some p =>
    obtain ⟨dir, file⟩ := p
    obtain ⟨hpath, hdir⟩ := splitOnce_eq_some hsp
    have hcd : List.count '/' dir = 0 := List.count_eq_zero.mpr hdir
    have hcf : 1 ≤ List.count '/' file := by
      rw [hpath, List.count_append, List.count_cons] at h
      simp only [hcd, beq_self_eq_true, if_true] at h
      omega
    have hmem : ('/' : Char) ∈ file := by
      by_contra hnm
      rw [List.count_eq_zero.mpr hnm] at hcf
      omega
    have hfile : file ≠ "METADATA".toList := by
      intro e
      rw [e] at hmem
      exact absurd hmem (by decide)
    simp at hfile
    constructor <;> simp [is_metadata_entry, findDistInfoFilter, hsp, hfile]

/-- Witness for the nested-path rejection at the concrete path
`sub/pkg-1.0.dist-info/METADATA`. -/
theorem nested_dist_info_rejected_witness :
    is_metadata_entry ("sub/pkg-1.0.dist-info/METADATA".toList)
        (⟨⟨"pkg".toList⟩, ⟨[1, 0]⟩⟩ : WheelFilename) = false ∧
    findDistInfoFilter (⟨⟨"pkg".toList⟩, ⟨[1, 0]⟩⟩ : WheelFilename) 0
        ("sub/pkg-1.0.dist-info/METADATA".toList) = none :=
  nested_dist_info_rejected _ 0 _ (by decide)

theorem packageNameFromStr_chars {s : Str} {n : PackageName}
    (h : packageNameFromStr s = some n) : ∀ c ∈ s, isNameChar c = true := by
  unfold packageNameFromStr at h
  split at h
  · rename_i hc
    exact fun c hm => List.all_eq_true.mp hc.2 c hm
  · cases h

theorem parseDigits_digits {s : Str} {n : Nat} (h : parseDigits s = some n) :
    ∀ c ∈ s, c.isDigit = true := by
  unfold parseDigits at h
  split at h
  · rename_i hc
    exact fun c hm => List.all_eq_true.mp hc.2 c hm
  · cases h

theorem parseSegs_sub {l : List Str} {ns : List Nat}
    (h : parseSegs l = some ns) : ∀ s ∈ l, ∃ n, parseDigits s = some n := by
  induction l generalizing ns with
  | nil => intro s hs; cases hs
  | cons a rest ih =>
    intro s hs
    unfold parseSegs at h
    cases hd : parseDigits a with
    | none => rw [hd] at h; simp at h
    | some n =>
      rw [hd] at h
      cases hr : parseSegs rest with
      | none => rw [hr] at h; simp at h
      | some ns' =>
        rcases List.mem_cons.mp hs with rfl | hs'
        · exact ⟨n, hd⟩
        · exact ih hr s hs'

theorem mem_splitOnChar {c x : Char} {s : Str} (hx : x ∈ s) :
    x = c ∨ ∃ seg ∈ splitOnChar c s, x ∈ seg := by
  induction s with
  | nil => cases hx
  | cons y ys ih =>
    rcases List.mem_cons.mp hx with rfl | hmem
    · by_cases hy : x = c
      · exact Or.inl hy
      · right
        cases hr : splitOnChar c ys with
        | nil =>
          refine ⟨[x], ?_, by simp⟩
          simp [splitOnChar, hr]
        | cons hh tt =>
          refine ⟨x :: hh, ?_, by simp⟩
          simp only [splitOnChar, hr, if_neg hy]
          exact List.mem_cons_self _ _
    · rcases ih hmem with hc | ⟨seg, hseg, hxseg⟩
      · exact Or.inl hc
      · right
        cases hr : splitOnChar c ys with
        | nil => rw [hr] at hseg; cases hseg
        | cons hh tt =>
          rw [hr] at hseg
          by_cases hy : y = c
          · refine ⟨seg, ?_, hxseg⟩
            simp only [splitOnChar, hr, if_pos hy]
            exact List.mem_cons_of_mem _ hseg
          · rcases List.mem_cons.mp hseg with rfl | hseg'
            · refine ⟨y :: seg, ?_, List.mem_cons_of_mem _ hxseg⟩
              simp only [splitOnChar, hr, if_neg hy]
              exact List.mem_cons_self _ _
            · refine ⟨seg, ?_, hxseg⟩
              simp only [splitOnChar, hr, if_neg hy]
              exact List.mem_cons_of_mem _ hseg'

theorem versionFromStr_chars {s : Str} {v : Version}
    (h : versionFromStr s = some v) :
    ∀ c ∈ s, c = '.' ∨ c.isDigit = true := by
  unfold versionFromStr at h
  cases hp : parseSegs (splitOnChar '.' s) with
  | none => rw [hp] at h; simp at h
  | some ns =>
    intro c hc
    rcases mem_splitOnChar (c := '.') hc with hdot | ⟨seg, hseg, hcseg⟩
    · exact Or.inl hdot
    · obtain ⟨n, hn⟩ := parseSegs_sub hp seg hseg
      exact Or.inr (parseDigits_digits hn c hcseg)

/-- C3: dist-info location is case-insensitive on the name and strict on the
version: a directory `{nm}-{ver}.dist-info` whose name part normalises to the
filename's name (so it may differ in letter case or separator choice) is
selected exactly when its version part, parsed as a version, compares equal to
the filename's version. -/
theorem dist_info_name_insensitive_version_strict {T : Type}
    (filename : WheelFilename) (payload : T) (nm ver : Str) (v : Version)
    (hname : packageNameFromStr nm = some filename.name)
    (hver : versionFromStr ver = some v) :
    (versionEq v filename.version = true →
      findDistInfoFilter filename payload
          (nm ++ '-' :: ver ++ ".dist-info/METADATA".toList) =
        some (payload, nm ++ '-' :: ver)) ∧
    (versionEq v filename.version = false →
      findDistInfoFilter filename payload
          (nm ++ '-' :: ver ++ ".dist-info/METADATA".toList) = none) := by
  have hverc := versionFromStr_chars hver
  have hnm_slash : ('/' : Char) ∉ nm := fun hm =>
    absurd (packageNameFromStr_chars hname '/' hm) (by decide)
  have hver_slash : ('/' : Char) ∉ ver := fun hm => by
    rcases hverc '/' hm with h | h <;> exact absurd h (by decide)
  have hdash : ('-' : Char) ∉ ver := fun hm => by
    rcases hverc '-' hm with h | h <;> exact absurd h (by decide)
  have hlit : (".dist-info/METADATA".toList : Str) =
      ".dist-info".toList ++ '/' :: "METADATA".toList := by decide
  have hassoc : nm ++ '-' :: ver ++ ".dist-info/METADATA".toList =
      (nm ++ '-' :: ver ++ ".dist-info".toList) ++ '/' :: "METADATA".toList := by
    rw [hlit]
    simp
  have hsplit : splitOnce '/'
      (nm ++ '-' :: ver ++ ".dist-info/METADATA".toList) =
      some (nm ++ '-' :: ver ++ ".dist-info".toList, "METADATA".toList) := by
    rw [hassoc]
    apply splitOnce_append
    intro hm
    simp only [List.mem_append, List.mem_cons] at hm
    rcases hm with (hm | hm | hm) | hm
    · exact hnm_slash hm
    · exact absurd hm (by decide)
    · exact hver_slash hm
    · exact absurd hm (by decide)
  have hstrip : stripSuffix (nm ++ '-' :: ver ++ ".dist-info".toList)
      (".dist-info".toList) = some (nm ++ '-' :: ver) := by
    have he : nm ++ '-' :: ver ++ ".dist-info".toList =
        (nm ++ '-' :: ver) ++ ".dist-info".toList := by simp
    rw [he, stripSuffix_append]
  have hrsplit : rsplitOnce '-' (nm ++ '-' :: ver) = some (nm, ver) :=
    rsplitOnce_append hdash
  constructor
  · intro hv
    simp at hsplit hstrip
    simp [findDistInfoFilter, hsplit, hstrip, hrsplit, hname, hver, hv]
  · intro hv
    simp at hsplit hstrip
    simp [findDistInfoFilter, hsplit, hstrip, hrsplit, hname, hver, hv]

/-- Witness for the case-insensitive selection: the directory
`FOO-1.0.dist-info` is selected for the filename whose normalised name is
`foo` at version `1.0`. -/
theorem dist_info_case_fold_witness :
    findDistInfoFilter (⟨⟨"foo".toList⟩, ⟨[1, 0]⟩⟩ : WheelFilename) 0
        ("FOO".toList ++ '-' :: "1.0".toList ++ ".dist-info/METADATA".toList) =
      some (0, "FOO".toList ++ '-' :: "1.0".toList) :=
  (dist_info_name_insensitive_version_strict
      (⟨⟨"foo".toList⟩, ⟨[1, 0]⟩⟩ : WheelFilename) 0 ("FOO".toList)
      ("1.0".toList) (⟨[1, 0]⟩ : Version) (by decide) (by decide)).1 (by decide)

theorem toNat_ofNat_valid {n : Nat} (h : Nat.isValidChar n) :
    (Char.ofNat n).toNat = n := by
  unfold Char.ofNat
  rw [dif_pos h]
  rfl

theorem isUpper_toLower (c : Char) : (Char.toLower c).isUpper = false := by
  unfold Char.toLower
  by_cases h : c.toNat ≥ 65 ∧ c.toNat ≤ 90
  · rw [if_pos h]
    have hv : Nat.isValidChar (c.toNat + 32) := Or.inl (by omega)
    have ht : (Char.ofNat (c.toNat + 32)).toNat = c.toNat + 32 :=
      toNat_ofNat_valid hv
    have hnle : ¬((Char.ofNat (c.toNat + 32)).val ≤ 90) := by
      rw [UInt32.le_def, BitVec.le_def]
      have h90 : ((90 : UInt32)).toBitVec.toNat = 90 := rfl
      have hx : (Char.ofNat (c.toNat + 32)).val.toBitVec.toNat = c.toNat + 32 := ht
      rw [h90, hx]
      omega
    unfold Char.isUpper
    rw [decide_eq_false hnle, Bool.and_false]
  · rw [if_neg h]
    unfold Char.isUpper
    by_cases h65 : (65 : UInt32) ≤ c.val
    · have h65' : 65 ≤ c.toNat := by
        rw [UInt32.le_def, BitVec.le_def] at h65
        exact h65
      have hn : ¬(c.val ≤ 90) := by
        intro hle
        rw [UInt32.le_def, BitVec.le_def] at hle
        exact h ⟨h65', hle⟩
      rw [decide_eq_false hn, Bool.and_false]
    · rw [decide_eq_false h65]
      exact Bool.false_and _

theorem isSeparator_toLower (c : Char) :
    isSeparator (Char.toLower c) = isSeparator c := by
  unfold Char.toLower
  by_cases h : c.toNat ≥ 65 ∧ c.toNat ≤ 90
  · rw [if_pos h]
    have hv : Nat.isValidChar (c.toNat + 32) := Or.inl (by omega)
    have ht : (Char.ofNat (c.toNat + 32)).toNat = c.toNat + 32 :=
      toNat_ofNat_valid hv
    have ne1 : Char.ofNat (c.toNat + 32) ≠ '-' := by
      intro e
      have he := congrArg Char.toNat e
      rw [ht, show Char.toNat '-' = 45 from rfl] at he
      omega
    have ne2 : Char.ofNat (c.toNat + 32) ≠ '_' := by
      intro e
      have he := congrArg Char.toNat e
      rw [ht, show Char.toNat '_' = 95 from rfl] at he
      omega
    have ne3 : Char.ofNat (c.toNat + 32) ≠ '.' := by
      intro e
      have he := congrArg Char.toNat e
      rw [ht, show Char.toNat '.' = 46 from rfl] at he
      omega
    have me1 : c ≠ '-' := by
      intro e
      have he := congrArg Char.toNat e
      rw [show Char.toNat '-' = 45 from rfl] at he
      omega
    have me2 : c ≠ '_' := by
      intro e
      have he := congrArg Char.toNat e
      rw [show Char.toNat '_' = 95 from rfl] at he
      omega
    have me3 : c ≠ '.' := by
      intro e
      have he := congrArg Char.toNat e
      rw [show Char.toNat '.' = 46 from rfl] at he
      omega
    unfold isSeparator
    rw [decide_eq_false ne1, decide_eq_false ne2, decide_eq_false ne3,
      decide_eq_false me1, decide_eq_false me2, decide_eq_false me3]
  · rw [if_neg h]

theorem normalizeChars_not_upper : ∀ (s : Str), ∀ c ∈ normalizeChars s,
    c.isUpper = false
  | [] => by simp [normalizeChars]
  | [c] => by
    intro x hx
    unfold normalizeChars at hx
    split at hx
    · rw [List.mem_singleton.mp hx]
      rfl
    · rw [List.mem_singleton.mp hx]
      exact isUpper_toLower c
  | a :: b :: rest => by
    intro x hx
    unfold normalizeChars at hx
    split at hx
    · split at hx
      · exact normalizeChars_not_upper (b :: rest) x hx
      · rcases List.mem_cons.mp hx with rfl | hx'
        · rfl
        · exact normalizeChars_not_upper (b :: rest) x hx'
    · rcases List.mem_cons.mp hx with rfl | hx'
      · exact isUpper_toLower a
      · exact normalizeChars_not_upper (b :: rest) x hx'

theorem normalizeChars_eq_collapse : ∀ (s : Str),
    normalizeChars s = collapseRunsSpec (s.map Char.toLower)
  | [] => rfl
  | [c] => by
    simp only [List.map, normalizeChars, collapseRunsSpec, isSeparator_toLower]
  | a :: b :: rest => by
    simp only [List.map, normalizeChars, collapseRunsSpec, isSeparator_toLower]
    rw [show (Char.toLower b :: List.map Char.toLower rest : Str) =
      List.map Char.toLower (b :: rest) from rfl]
    rw [← normalizeChars_eq_collapse (b :: rest)]

theorem packageNameFromStr_name {s : Str} {n : PackageName}
    (h : packageNameFromStr s = some n) : n.name = normalizeChars s := by
  unfold packageNameFromStr at h
  split at h
  · exact (congrArg PackageName.name (Option.some.inj h)).symm
  · cases h

/-- C7: every string the package-name parser accepts yields a normalised name
that is lowercase (no uppercase letter remains) and equals the lowercased
input with every maximal separator run collapsed to a single `-`; and two
parsed names are equal, as the locator compares them, exactly when the
normalised forms of their inputs are identical. -/
theorem package_name_normalisation (s : Str) :
    (∀ n, packageNameFromStr s = some n →
      (∀ c ∈ n.name, c.isUpper = false) ∧
      n.name = collapseRunsSpec (s.map Char.toLower)) ∧
    (∀ t n m, packageNameFromStr s = some n → packageNameFromStr t = some m →
      (n = m ↔ normalizeChars s = normalizeChars t)) := by
  constructor
  · intro n hn
    have hname := packageNameFromStr_name hn
    constructor
    · intro c hc
      rw [hname] at hc
      exact normalizeChars_not_upper s c hc
    · rw [hname, normalizeChars_eq_collapse]
  · intro t n m hn hm
    have h1 := packageNameFromStr_name hn
    have h2 := packageNameFromStr_name hm
    constructor
    · intro e
      rw [← h1, ← h2, e]
    · intro e
      have hnm : n.name = m.name := by rw [h1, h2, e]
      obtain ⟨nn⟩ := n
      obtain ⟨mm⟩ := m
      exact congrArg PackageName.mk hnm

/-- C10: `ResolutionStrategy.from_mode` sends the `Highest` and `Lowest`
modes to the matching strategies ignoring the manifest, and sends
`LowestDirect` to a strategy whose package-name set holds exactly the names
of the manifest's requirements together with the names in the
`requires_dist` of every editable. -/
theorem resolution_strategy_from_mode_spec (manifest : Manifest) :
    ResolutionStrategy.from_mode ResolutionMode.Highest manifest =
      ResolutionStrategy.Highest ∧
    ResolutionStrategy.from_mode ResolutionMode.Lowest manifest =
      ResolutionStrategy.Lowest ∧
    ∃ direct,
      ResolutionStrategy.from_mode ResolutionMode.LowestDirect manifest =
        ResolutionStrategy.LowestDirect direct ∧
      ∀ n, n ∈ direct ↔
        ((∃ r ∈ manifest.requirements, r.name = n) ∨
         ∃ e ∈ manifest.editables, ∃ r ∈ e.2.requires_dist, r.name = n) := by
  refine ⟨rfl, rfl, _, rfl, ?_⟩
  intro n
  simp only [List.mem_toFinset, List.mem_map, List.mem_append, List.mem_flatten]
  constructor
  · rintro ⟨r, hr | ⟨l, ⟨⟨e, he, rfl⟩, hrl⟩⟩, rfl⟩
    · exact Or.inl ⟨r, hr, rfl⟩
    · exact Or.inr ⟨e, he, r, hrl, rfl⟩
  · rintro (⟨r, hr, rfl⟩ | ⟨e, he, r, hrl, rfl⟩)
    · exact ⟨r, Or.inl hr, rfl⟩
    · exact ⟨r, Or.inr ⟨e.2.requires_dist, ⟨e, he, rfl⟩, hrl⟩, rfl⟩
